import Mathlib

/-!
Verification of the qsearch quantum-circuit synthesizer against its design
specification.  The repository has three Python source files:

* `src/qsearch/compiler.py` — the current search driver (`SearchCompiler.compile`);
* `src/search_compiler/compiler.py` — a legacy search driver;
* `src/search_compiler/circuits.py` — the circuit/gate tree (`QuantumStep` variants).

Each section below is a shallow embedding of one part of the code, translated
from the source, followed by the theorems that settle the frozen claims.
-/

namespace QsearchSpec

/-! ## Section 1: Python name resolution

Several claims concern names that the Python code references without binding
(`starttime`, `util`, `gates`, `control`, `target`).  Python resolves a bare
name by first consulting the set of names the enclosing function binds
anywhere in its body (its static local set), then the module-level global
bindings; an unresolvable bare name raises `NameError` the moment the
expression evaluates.  We embed exactly that lookup discipline over the name
sets read off from the source files. -/

/-- Outcome of evaluating a small piece of Python code: a normal value, or an
uncaught exception carrying the exception kind and the offending detail. -/
inductive PyResult (α : Type) where
  | ok (a : α)
  | exn (kind : String) (detail : String)
deriving DecidableEq, Repr

/-- Python bare-name lookup: the name resolves iff it is in the enclosing
local set of the enclosing function or the global set of the module; otherwise `NameError`. -/
def resolveName (locs globs : List String) (n : String) : PyResult Unit :=
  if locs.contains n || globs.contains n then .ok () else .exn "NameError" n

/-- First unresolvable name in an evaluation-ordered list of referenced base
names; Python aborts at that point with a `NameError`. -/
def evalRefs (locs globs : List String) (refs : List String) : PyResult Unit :=
  match refs.find? (fun n => !(locs.contains n || globs.contains n)) with
  | some n => .exn "NameError" n
  | none => .ok ()

/-- Module-level names bound by `src/search_compiler/circuits.py`: line 1 binds
`np`, line 3 binds `utils` and `graphics`, and each `class` statement binds its
class name.  (No `__all__` is declared, so a star-import of this module exports
exactly these, none of which starts with an underscore.) -/
def circuitsModuleNames : List String :=
  ["np", "utils", "graphics",
   "QuantumStep", "IdentityStep", "ZXZXZQubitStep", "XZXZPartialQubitStep",
   "QiskitU3QubitStep", "SingleQubitStep", "SingleQutritStep", "UStep", "CUStep",
   "InvertStep", "CSUMStep", "CPIStep", "CPIPhaseStep", "CNOTStep",
   "NonadjacentCNOTStep", "CRZStep", "RemapStep", "CNOTRootStep",
   "KroneckerStep", "ProductStep"]

/-- Names bound at module level of `src/search_compiler/compiler.py` by the
time the `SearchCompiler` class body executes: the imports of lines 1-12
(including the star-import of `circuits`) plus the earlier `Compiler` class
and the `evaluate_step` function. -/
def legacyCompilerModuleNames : List String :=
  ["Pool", "cpu_count", "partial", "timer", "heapq"]
  ++ circuitsModuleNames
  ++ ["gatesets", "CMA_Solver", "utils", "logprint", "checkpoint",
      "Compiler", "evaluate_step"]

/-- Base names referenced, in evaluation order, by the default-argument
expressions of legacy `SearchCompiler.__init__` (compiler.py line 22):
`util.matrix_distance_squared`, `gatesets.Default()`, `CMA_Solver()`.  The
literal defaults `threshold=0.01` and `d=2` reference no name. -/
def legacyInitDefaultRefs : List String := ["util", "gatesets", "CMA_Solver"]

/-- Python evaluates the default-argument expressions of a `def` statement when the
`def` statement itself executes; for a method, that happens while the class
body runs, i.e. while the module is being imported.  This models importing
`src/search_compiler/compiler.py` up to line 22: each base name referenced by
a default expression is looked up in the module globals (there is no enclosing
function scope), and the first unresolvable one aborts the import. -/
def importLegacyCompiler : PyResult Unit :=
  evalRefs [] legacyCompilerModuleNames legacyInitDefaultRefs

/-- C9: importing the legacy module `src/search_compiler/compiler.py` always
fails with a `NameError` on the unbound name `util`: the line-22 default
argument `util.matrix_distance_squared` is evaluated while the class body
executes at import time, the module binds `utils` but never `util`, so
importing dies and the legacy `SearchCompiler` class is never created. -/
theorem legacy_compiler_import_raises_nameError :
    importLegacyCompiler = .exn "NameError" "util"
    ∧ resolveName [] legacyCompilerModuleNames "util" = .exn "NameError" "util"
    ∧ "util" ∉ legacyCompilerModuleNames
    ∧ "utils" ∈ legacyCompilerModuleNames := by decide

/-- Parameter names of `NonadjacentCNOTStep.__init__` (circuits.py line 337);
these are its only local bindings before line 342 executes. -/
def nonadjacentInitLocals : List String := ["self", "n", "control", "target"]

/-- Base names referenced by the body of `NonadjacentCNOTStep.__init__`
(circuits.py lines 338-342) in evaluation order; the final statement
`self._U = gates.arbitrary_cnot(n, control, target)` evaluates the bare name
`gates` before its arguments. -/
def nonadjacentInitRefs : List String := ["n", "control", "target", "gates"]

/-- Constructing `NonadjacentCNOTStep(n, control, target)`: run the
initializer body, resolving names against its locals and the circuits-module
globals. -/
def runNonadjacentInit : PyResult Unit :=
  evalRefs nonadjacentInitLocals circuitsModuleNames nonadjacentInitRefs

/-- Local names of `NonadjacentCNOTStep.assemble` (circuits.py line 347): its
parameters only. -/
def nonadjacentAssembleLocals : List String := ["self", "v", "i"]

/-- Base names referenced by the body of `NonadjacentCNOTStep.assemble`
(circuits.py line 348): the record tuple `(control, target)` uses the bare
names `control` and `target`, not `self.control` / `self.target`. -/
def nonadjacentAssembleRefs : List String := ["control", "target"]

/-- Calling `NonadjacentCNOTStep.assemble(v, i)` (were an instance to exist). -/
def runNonadjacentAssemble : PyResult Unit :=
  evalRefs nonadjacentAssembleLocals circuitsModuleNames nonadjacentAssembleRefs

/-- C10: every construction of `NonadjacentCNOTStep` raises `NameError` on the
unbound name `gates` (the circuits module never binds `gates`), and the
`assemble` method likewise references the unbound bare names `control` and
`target`, so the gate can be neither instantiated nor assembled. -/
theorem nonadjacentCNOT_never_constructible :
    runNonadjacentInit = .exn "NameError" "gates"
    ∧ "gates" ∉ circuitsModuleNames
    ∧ runNonadjacentAssemble = .exn "NameError" "control"
    ∧ "control" ∉ circuitsModuleNames ∧ "target" ∉ circuitsModuleNames := by decide

/-- Module-level names of `src/qsearch/compiler.py` (lines 1-11): `partial`,
`timer`, `heapq`, the star-import of the sibling `circuits` module, and the
named imports.  The qsearch `circuits` module itself is not under `src/`; its
public names are modelled from the note in the spec that the two circuit-tree
versions coexist with the same class inventory (spec section 9), so the
star-import is taken to bind the same public names as the in-tree legacy
circuits module — in particular it binds nothing called `starttime`. -/
def qsearchModuleNames : List String :=
  ["partial", "timer", "heapq"]
  ++ circuitsModuleNames
  ++ ["scsolver", "Options", "defaults", "smart_defaults", "parallelizer",
      "backend", "checkpoint", "utils", "heuristics", "circuits", "logging",
      "gatesets", "Compiler", "SearchCompiler"]

/-- Static local set of `SearchCompiler.compile` in `src/qsearch/compiler.py`:
every name the function binds anywhere in its body (parameters, assignments,
and loop targets).  Note line 42 binds `startime` — with a single `t` — and no
statement anywhere binds `starttime`. -/
def qsearchCompileLocals : List String :=
  ["self", "options", "xtraargs", "U", "depth", "statefile", "logger",
   "startime", "h", "dits", "I", "initial_layer", "search_layers", "root",
   "result", "parallel", "beams", "recovered_state", "queue", "best_depth",
   "best_value", "best_pair", "tiebreaker", "rectime", "popped", "tup",
   "then", "new_steps", "step", "current_depth", "weight", "current_value",
   "new_depth", "_"]

/-- Base names referenced by the timeout termination check, qsearch
compiler.py line 104: `(timeout in options) and (timer() - starttime > options.timeout)`, in evaluation order after the `in` test succeeds. -/
def qsearchTimeoutRefs : List String := ["options", "timer", "starttime", "options"]

/-- Evaluating the timeout check at the top of the main loop.  When no timeout
is configured the conjunction short-circuits to `False`; when one is
configured the right conjunct evaluates and must resolve `starttime`. -/
def qsearchTimeoutCheck (timeoutConfigured : Bool) : PyResult Bool :=
  if !timeoutConfigured then .ok false
  else
    match evalRefs qsearchCompileLocals qsearchModuleNames qsearchTimeoutRefs with
    | .ok _ => .ok true
    | .exn k d => .exn k d

/-- C2 (code bug): whenever a timeout is configured, the very first evaluation
of the timeout check in the loop raises `NameError` on `starttime`, because the
start timestamp was bound as `startime` (line 42) and `starttime` is neither a
local of `compile` nor a module global.  With no timeout configured the check
short-circuits harmlessly, which is why the rest of the loop is reachable. -/
theorem timeout_check_raises_nameError :
    qsearchTimeoutCheck true = .exn "NameError" "starttime"
    ∧ qsearchTimeoutCheck false = .ok false
    ∧ "startime" ∈ qsearchCompileLocals
    ∧ "starttime" ∉ qsearchCompileLocals
    ∧ "starttime" ∉ qsearchModuleNames := by decide

/-! ## Section 2: the entry dimension check (claim C7)

`SearchCompiler.compile` (qsearch/compiler.py lines 44-47) computes
`dits = int(np.round(np.log(D)/np.log(d)))` and raises `ValueError` when
`d ** dits != D`.  We embed the check at exact-real precision: the rounded
base-`d` logarithm of `D` is `Nat.log d D` (the floor), bumped by one exactly
when `log_d D` is at least half way to the next integer, i.e. when
`d ^ (2k+1) ≤ D ^ 2`.  (NumPy rounds exact halves to even; an exact half can
only occur when `D` is not a power of `d`, and then `d ^ dits ≠ D` under
either rounding, so the raise outcome is unaffected by the difference.) -/

/-- Exact-arithmetic model of `int(np.round(np.log(D)/np.log(d)))` for
`2 ≤ d`. -/
def roundLogBase (d D : ℕ) : ℕ :=
  let k := Nat.log d D
  if d ^ (2 * k + 1) ≤ D ^ 2 then k + 1 else k

/-- The entry check of `compile`: `True` means the `ValueError` at
compiler.py line 47 is raised, `False` means compilation proceeds. -/
def dimensionCheckRaises (d D : ℕ) : Bool :=
  decide (d ^ roundLogBase d D ≠ D)

theorem roundLogBase_pow (d n : ℕ) (hd : 2 ≤ d) :
    roundLogBase d (d ^ n) = n := by
  unfold roundLogBase
  have hk : Nat.log d (d ^ n) = n := Nat.log_pow hd n
  rw [hk]
  have hlt : d ^ (2 * n) < d ^ (2 * n + 1) :=
    Nat.pow_lt_pow_right (by omega) (by omega)
  have hpow : (d ^ n) ^ 2 = d ^ (2 * n) := by
    rw [← pow_mul, Nat.mul_comm]
  rw [hpow, if_neg (by omega)]

/-- C7: the entry point raises at entry iff the target dimension `D` is not a
power of the qudit dimension of the gateset `d`; when `D = d ^ n` the computed
`dits` is exactly `n`, the check passes and compilation proceeds. -/
theorem dimension_check_raises_iff (d D : ℕ) (hd : 2 ≤ d) :
    dimensionCheckRaises d D = true ↔ ¬ ∃ n : ℕ, D = d ^ n := by
  unfold dimensionCheckRaises
  constructor
  · intro h hex
    obtain ⟨n, rfl⟩ := hex
    rw [roundLogBase_pow d n hd] at h
    simp at h
  · intro h
    by_contra hb
    simp only [decide_eq_true_eq, not_not] at hb
    exact h ⟨roundLogBase d D, hb.symm⟩

/-- Witness for C7 at `d = 2`, `D = 8 = 2 ^ 3`: the check passes on an exact
power and the equivalence evaluates on concrete input. -/
theorem dimension_check_raises_iff_witness :
    2 ≤ 2 ∧ (dimensionCheckRaises 2 8 = true ↔ ¬ ∃ n : ℕ, 8 = 2 ^ n) :=
  ⟨by decide, dimension_check_raises_iff 2 8 (by decide)⟩

/-! ## Section 3: circuit assembly output (claim C8)

`src/search_compiler/circuits.py` gives every gate variant an
`assemble(v, i)` method.  We embed the instantiable variants
(`NonadjacentCNOTStep` is excluded: by C10 its constructor always raises, so
no instance can ever be asked to assemble) and translate each `assemble`
body.  Parameter vectors are taken rational and emitted angles are recorded
as their coefficient of pi: every angle the methods build is such a multiple
(`v[0]*np.pi*2 ↦ 2*v0`, `np.pi/2 ↦ 1/2`, `v[1]*np.pi*2 + np.pi ↦ 2*v1 + 1`).

Python details that matter here and are modelled exactly:
* `CUStep.assemble` returns a formatted `str`, not a list (lines 211-217);
* `InvertStep.assemble` computes `"REVERSE ..." + self._step.assemble(v, i)`;
  string + list raises `TypeError`, string + string concatenates (line 233);
* `CRZStep.assemble` and `RemapStep.assemble` raise `NotImplementedError`
  before doing anything else (lines 371, 416);
* `SingleQutritStep.assemble` emits a three-field `("qutrit", params, qudits)`
  record (line 165), not a four-field `"gate"` record;
* in `KroneckerStep.assemble` / `ProductStep.assemble` the accumulator is
  extended with `out += child_result`; extending a list by a `str` appends its
  individual characters rather than raising. -/

/-- Assembled circuit records, as produced by the `assemble` methods.  The
`chr` constructor represents a single character absorbed into the list when
Python extends the accumulator with a string. -/
inductive Rec where
  | gate (name : String) (params : List ℚ) (qudits : List ℤ)
  | block (subs : List Rec)
  | qutrit (params : List ℚ) (qudits : List ℤ)
  | chr (c : Char)

/-- Result of one `assemble` call: a list of records, a bare string, or an
uncaught exception. -/
inductive AsmResult where
  | recs (rs : List Rec)
  | str (s : String)
  | notImpl
  | typeError

/-! The instantiable gate variants of `src/search_compiler/circuits.py`, with
compositional nodes carrying their children. -/
mutual
inductive Gate where
  | identity (n : ℕ) (numDits : ℕ)
  | zxzxz
  | xzxz
  | qiskitU3
  | singleQutrit
  | uGate (name : Option String) (numDits : ℕ)
  | cu (name : Option String) (flipped : Bool)
  | invert (sub : Gate)
  | csum
  | cpi
  | cpiPhase
  | cnot
  | crz
  | remap (sub : Gate) (numDits : ℕ) (source target : ℤ)
  | cnotRoot
  | kron (children : GateList)
  | prodG (children : GateList)

inductive GateList where
  | nil
  | cons (head : Gate) (tail : GateList)
end

/-! `num_inputs` of each variant, as set by the corresponding `__init__`
(compositional nodes sum over their children). -/
mutual
def Gate.numInputs : Gate → ℕ
  | .identity _ _ => 0
  | .zxzxz => 3
  | .xzxz => 2
  | .qiskitU3 => 3
  | .singleQutrit => 8
  | .uGate _ _ => 0
  | .cu _ _ => 0
  | .invert s => s.numInputs
  | .csum => 0
  | .cpi => 0
  | .cpiPhase => 0
  | .cnot => 0
  | .crz => 1
  | .remap s _ _ _ => s.numInputs
  | .cnotRoot => 0
  | .kron cs => cs.numInputsSum
  | .prodG cs => cs.numInputsSum

def GateList.numInputsSum : GateList → ℕ
  | .nil => 0
  | .cons c rest => c.numInputs + rest.numInputsSum
end

/-! `dits` of each variant: Kronecker sums over its children, Product takes the width of its
first child (0 when empty), per circuits.py lines 449 and 492. -/
mutual
def Gate.ditsOf : Gate → ℕ
  | .identity _ d => d
  | .zxzxz => 1
  | .xzxz => 1
  | .qiskitU3 => 1
  | .singleQutrit => 1
  | .uGate _ d => d
  | .cu _ _ => 2
  | .invert s => s.ditsOf
  | .csum => 2
  | .cpi => 2
  | .cpiPhase => 2
  | .cnot => 2
  | .crz => 2
  | .remap _ d _ _ => d
  | .cnotRoot => 2
  | .kron cs => cs.ditsSum
  | .prodG cs => cs.ditsHead

def GateList.ditsSum : GateList → ℕ
  | .nil => 0
  | .cons c rest => c.ditsOf + rest.ditsSum

def GateList.ditsHead : GateList → ℕ
  | .nil => 0
  | .cons c _ => c.ditsOf
end

/-- Python `v[k]` on a conforming parameter vector. -/
def pyGet (v : List ℚ) (k : ℕ) : ℚ := v.getD k 0

/-! The `assemble(v, i)` methods, translated clause by clause from
circuits.py.  `assembleChildren` is the shared accumulator loop of
`KroneckerStep.assemble` / `ProductStep.assemble`: each child receives the
slice `v[index : index + child.num_inputs]`, then `index` advances by the
arity of the child and (for Kronecker only) the base qudit advances by its
`dits`. -/
mutual
def Gate.assemble : Gate → List ℚ → ℤ → AsmResult
  | .identity _ _, _, _ => .recs []
  | .zxzxz, v, i => .recs [.block
      [.gate "Z" [2 * pyGet v 0] [i],
       .gate "X" [1/2] [i],
       .gate "Z" [2 * pyGet v 1 + 1] [i],
       .gate "X" [1/2] [i],
       .gate "Z" [2 * pyGet v 2 + 1] [i]]]
  | .xzxz, v, i => .recs [.block
      [.gate "X" [1/2] [i],
       .gate "Z" [2 * pyGet v 0 + 1] [i],
       .gate "X" [1/2] [i],
       .gate "Z" [2 * pyGet v 1 + 1] [i]]]
  | .qiskitU3, v, i =>
      .recs [.gate "qiskit-u3" [2 * pyGet v 0, 2 * pyGet v 1, 2 * pyGet v 2] [i]]
  | .singleQutrit, v, i => .recs [.qutrit v [i]]
  | .uGate name _, _, i => .recs [.gate (name.getD "UNKNOWN") [] [i]]
  | .cu name flipped, _, i =>
      let first := if flipped then i + 1 else i
      let second := if flipped then i else i + 1
      match name with
      | none => .str ("CONTROLLED-UNKNOWN q" ++ toString first ++ " q" ++ toString second)
      | some nm => .str ("C" ++ nm ++ " q" ++ toString first ++ " q" ++ toString second)
  | .invert s, v, i =>
      match s.assemble v i with
      | .str t => .str ("REVERSE \x7b\n" ++ t ++ "\n\x7d")
      | .recs _ => .typeError
      | e => e
  | .csum, _, i => .recs [.gate "CSUM" [] [i, i + 1]]
  | .cpi, _, i => .recs [.gate "CPI" [] [i, i + 1]]
  | .cpiPhase, _, i => .recs [.gate "CPI-" [] [i, i + 1]]
  | .cnot, _, i => .recs [.gate "CNOT" [] [i, i + 1]]
  | .crz, _, _ => .notImpl
  | .remap _ _ _ _, _, _ => .notImpl
  | .cnotRoot, _, i => .recs [.gate "sqrt(CNOT)" [] [i, i + 1]]
  | .kron cs, v, i =>
      match GateList.assembleChildren cs v 0 i true with
      | .recs out => .recs [.block out]
      | e => e
  | .prodG cs, v, i => GateList.assembleChildren cs v 0 i false

def GateList.assembleChildren : GateList → List ℚ → ℕ → ℤ → Bool → AsmResult
  | .nil, _, _, _, _ => .recs []
  | .cons c rest, v, idx, i, advance =>
      let iNext : ℤ := if advance then i + (c.ditsOf : ℤ) else i
      match c.assemble ((v.drop idx).take c.numInputs) i with
      | .recs rs =>
          match GateList.assembleChildren rest v (idx + c.numInputs) iNext advance with
          | .recs out => .recs (rs ++ out)
          | e => e
      | .str s =>
          match GateList.assembleChildren rest v (idx + c.numInputs) iNext advance with
          | .recs out => .recs (s.toList.map .chr ++ out)
          | e => e
      | e => e
end

/-- A record of the shape the assembly contract of the spec allows: a four-field
"gate" record, or a "block" whose members all have allowed shape. -/
def recOkB : Rec → Bool
  | .gate _ _ _ => true
  | .block subs => goB subs
  | .qutrit _ _ => false
  | .chr _ => false
where
  goB : List Rec → Bool
    | [] => true
    | r :: rs => recOkB r && goB rs

/-- An `assemble` outcome satisfying the claimed contract: a list of records,
each of allowed shape. -/
def asmOkB : AsmResult → Bool
  | .recs rs => recOkB.goB rs
  | _ => false

/-! Gate subtrees built only from variants whose `assemble` honours the
record contract (everything except `CUStep`, `InvertStep`, `CRZStep`,
`RemapStep` and `SingleQutritStep`). -/
mutual
def Gate.benign : Gate → Bool
  | .identity _ _ => true
  | .zxzxz => true
  | .xzxz => true
  | .qiskitU3 => true
  | .singleQutrit => false
  | .uGate _ _ => true
  | .cu _ _ => false
  | .invert _ => false
  | .csum => true
  | .cpi => true
  | .cpiPhase => true
  | .cnot => true
  | .crz => false
  | .remap _ _ _ _ => false
  | .cnotRoot => true
  | .kron cs => cs.benignAll
  | .prodG cs => cs.benignAll

def GateList.benignAll : GateList → Bool
  | .nil => true
  | .cons c rest => c.benign && rest.benignAll
end

theorem goB_append (xs ys : List Rec) :
    recOkB.goB (xs ++ ys) = (recOkB.goB xs && recOkB.goB ys) := by
  induction xs with
  | nil => simp [recOkB.goB]
  | cons x xs ih => simp [recOkB.goB, ih, Bool.and_assoc]

mutual
theorem benign_assemble_ok (g : Gate) (v : List ℚ) (i : ℤ)
    (hb : g.benign = true) : asmOkB (g.assemble v i) = true := by
  cases g with
  | identity n d => rfl
  | zxzxz => rfl
  | xzxz => rfl
  | qiskitU3 => rfl
  | singleQutrit => exact absurd hb (by simp [Gate.benign])
  | uGate name d => rfl
  | cu name flipped => exact absurd hb (by simp [Gate.benign])
  | invert s => exact absurd hb (by simp [Gate.benign])
  | csum => rfl
  | cpi => rfl
  | cpiPhase => rfl
  | cnot => rfl
  | crz => exact absurd hb (by simp [Gate.benign])
  | remap s d a b => exact absurd hb (by simp [Gate.benign])
  | cnotRoot => rfl
  | kron cs =>
      have h := benignAll_assembleChildren_ok cs v 0 i true hb
      simp only [Gate.assemble]
      obtain ⟨out, hout, hok⟩ := h
      rw [hout]
      simpa [asmOkB, recOkB, recOkB.goB] using hok
  | prodG cs =>
      have h := benignAll_assembleChildren_ok cs v 0 i false hb
      simp only [Gate.assemble]
      obtain ⟨out, hout, hok⟩ := h
      rw [hout]
      simpa [asmOkB] using hok

theorem benignAll_assembleChildren_ok (cs : GateList) (v : List ℚ) (idx : ℕ)
    (i : ℤ) (advance : Bool) (hb : cs.benignAll = true) :
    ∃ out, GateList.assembleChildren cs v idx i advance = .recs out
      ∧ recOkB.goB out = true := by
  cases cs with
  | nil => exact ⟨[], rfl, rfl⟩
  | cons c rest =>
      have hc : c.benign = true := by
        have := hb
        simp [GateList.benignAll, Bool.and_eq_true] at this
        exact this.1
      have hrest : rest.benignAll = true := by
        have := hb
        simp [GateList.benignAll, Bool.and_eq_true] at this
        exact this.2
      have hcok := benign_assemble_ok c ((v.drop idx).take c.numInputs) i hc
      have hrok := benignAll_assembleChildren_ok rest v (idx + c.numInputs)
        (if advance then i + (c.ditsOf : ℤ) else i) advance hrest
      obtain ⟨out, hout, hok⟩ := hrok
      simp only [GateList.assembleChildren]
      cases hres : c.assemble ((v.drop idx).take c.numInputs) i with
      | recs rs =>
          rw [hres] at hcok
          have hgo : recOkB.goB rs = true := by simpa [asmOkB] using hcok
          refine ⟨rs ++ out, by simp only [hout], ?_⟩
          rw [goB_append, hgo, hok]
          rfl
      | str s => rw [hres] at hcok; exact absurd hcok (by simp [asmOkB])
      | notImpl => rw [hres] at hcok; exact absurd hcok (by simp [asmOkB])
      | typeError => rw [hres] at hcok; exact absurd hcok (by simp [asmOkB])
end

/-- C8 counterexample: `CUStep.assemble` returns a formatted string, not a
list of records; `InvertStep.assemble` on a record-producing child raises
`TypeError`; `CRZStep.assemble` and `RemapStep.assemble` raise
`NotImplementedError`; and `SingleQutritStep.assemble` emits a three-field
`("qutrit", ...)` record.  Each refutes the claimed contract at a concrete
input. -/
theorem cu_assemble_returns_string :
    Gate.assemble (.cu none false) [] 0 = .str "CONTROLLED-UNKNOWN q0 q1"
    ∧ asmOkB (Gate.assemble (.cu none false) [] 0) = false
    ∧ Gate.assemble (.invert .cnot) [] 0 = .typeError
    ∧ Gate.assemble .crz [1] 0 = .notImpl
    ∧ Gate.assemble (.remap .cnot 3 0 2) [] 0 = .notImpl
    ∧ asmOkB (Gate.assemble .singleQutrit [0, 0, 0, 0, 0, 0, 0, 0] 0) = false := by
  refine ⟨?_, rfl, rfl, rfl, rfl, rfl⟩
  simp only [Gate.assemble]
  rfl

/-- C8 amended: for every gate variant other than `CUStep`, `InvertStep`,
`CRZStep`, `RemapStep` and `SingleQutritStep` (and compositions containing
only such variants), `assemble(v, i)` returns a list whose elements are
records of the form `("gate", name, params, qudits)` or `("block",
sub_records)`. -/
theorem assemble_emits_record_lists (g : Gate) (v : List ℚ) (i : ℤ)
    (hb : g.benign = true) : asmOkB (g.assemble v i) = true :=
  benign_assemble_ok g v i hb

/-- Witness for the amended C8 on the concrete circuit
`ProductStep(CNOTStep(), ZXZXZQubitStep())` at `v = [0,0,0]`, `i = 0`. -/
theorem assemble_emits_record_lists_witness :
    Gate.benign (.prodG (.cons .cnot (.cons .zxzxz .nil))) = true
    ∧ asmOkB (Gate.assemble (.prodG (.cons .cnot (.cons .zxzxz .nil))) [0, 0, 0] 0) = true :=
  ⟨by rfl, assemble_emits_record_lists _ [0, 0, 0] 0 (by rfl)⟩

/-! ## Section 4: the ZXZXZ single-qubit gate (claim C4)

`ZXZXZQubitStep.matrix` (circuits.py lines 69-76) computes, with `np.dot`
(ordinary matrix multiplication, left factor first):

    out    = rot_z(v0*2pi) . x90
    buffer = out . rot_z(v1*2pi + pi)
    out    = buffer . x90
    return   out . rot_z(v2*2pi - pi)

i.e. `rot_z(2pi v0) . x90 . rot_z(2pi v1 + pi) . x90 . rot_z(2pi v2 - pi)`.
The claim instead puts `R_z(2pi t2 - pi)` leftmost, "multiplied in the order
written" — the reverse product, which differs in general. -/

/-- Modelled from the spec: `utils.rot_z` is not under `src/`; the spec names
the factor `R_z`, embedded here as the standard single-qubit z-rotation
`R_z(t) = diag(e^(-it/2), e^(it/2))`, a complex 2-by-2 matrix. -/
noncomputable def rot_z (t : ℝ) : Matrix (Fin 2) (Fin 2) ℂ :=
  !![Complex.exp (-(t : ℂ) / 2 * Complex.I), 0;
     0, Complex.exp ((t : ℂ) / 2 * Complex.I)]

/-- Modelled from the spec: `utils.rot_x` is not under `src/`; the spec sets
`X90 = R_x(pi/2)` with the standard x-rotation
`R_x(t) = [[cos(t/2), -i sin(t/2)], [-i sin(t/2), cos(t/2)]]`. -/
noncomputable def rot_x (t : ℝ) : Matrix (Fin 2) (Fin 2) ℂ :=
  !![Complex.cos ((t : ℂ) / 2), -Complex.I * Complex.sin ((t : ℂ) / 2);
     -Complex.I * Complex.sin ((t : ℂ) / 2), Complex.cos ((t : ℂ) / 2)]

/-- `self._x90 = utils.rot_x(np.pi/2)` (circuits.py line 63). -/
noncomputable def x90 : Matrix (Fin 2) (Fin 2) ℂ := rot_x (Real.pi / 2)

/-- `ZXZXZQubitStep.matrix(v)`, translated from circuits.py lines 69-76: the
chain of `np.dot` calls multiplies the factors left to right in the order the
code applies them. -/
noncomputable def zxzxzMatrix (v : Fin 3 → ℝ) : Matrix (Fin 2) (Fin 2) ℂ :=
  rot_z (v 0 * Real.pi * 2) * x90 * rot_z (v 1 * Real.pi * 2 + Real.pi) * x90
    * rot_z (v 2 * Real.pi * 2 - Real.pi)

/-- The product exactly as the claim writes it:
`R_z(2pi t2 - pi) . X90 . R_z(2pi t1 + pi) . X90 . R_z(2pi t0)`, factors
multiplied in the order written. -/
noncomputable def zxzxzClaimFormula (v : Fin 3 → ℝ) : Matrix (Fin 2) (Fin 2) ℂ :=
  rot_z (2 * Real.pi * v 2 - Real.pi) * x90 * rot_z (2 * Real.pi * v 1 + Real.pi)
    * x90 * rot_z (2 * Real.pi * v 0)

/-- The amended formula: the same five factors, multiplied in the reverse of
the order the claim states, `R_z(2pi t0) . X90 . R_z(2pi t1 + pi) . X90 .
R_z(2pi t2 - pi)`. -/
noncomputable def zxzxzAmendedFormula (v : Fin 3 → ℝ) : Matrix (Fin 2) (Fin 2) ℂ :=
  rot_z (2 * Real.pi * v 0) * (x90 * (rot_z (2 * Real.pi * v 1 + Real.pi)
    * (x90 * rot_z (2 * Real.pi * v 2 - Real.pi))))

theorem rot_z_zero : rot_z 0 = !![1, 0; 0, 1] := by
  unfold rot_z
  norm_num

theorem rot_z_two_pi : rot_z (2 * Real.pi) = !![-1, 0; 0, -1] := by
  unfold rot_z
  have h2 : ((2 * Real.pi : ℝ) : ℂ) / 2 * Complex.I = Real.pi * Complex.I := by
    push_cast; ring
  have h1 : -((2 * Real.pi : ℝ) : ℂ) / 2 * Complex.I = -(Real.pi * Complex.I) := by
    push_cast; ring
  rw [h1, h2, Complex.exp_pi_mul_I, Complex.exp_neg, Complex.exp_pi_mul_I]
  norm_num

theorem rot_z_neg_pi : rot_z (-Real.pi) = !![Complex.I, 0; 0, -Complex.I] := by
  unfold rot_z
  have h1 : -((-Real.pi : ℝ) : ℂ) / 2 * Complex.I = (Real.pi / 2 : ℝ) * Complex.I := by
    push_cast; ring
  have h2 : ((-Real.pi : ℝ) : ℂ) / 2 * Complex.I = -((Real.pi / 2 : ℝ) * Complex.I) := by
    push_cast; ring
  have hexp : Complex.exp ((Real.pi / 2 : ℝ) * Complex.I) = Complex.I := by
    rw [Complex.exp_mul_I, ← Complex.ofReal_cos, ← Complex.ofReal_sin,
      Real.cos_pi_div_two, Real.sin_pi_div_two]
    norm_num
  rw [h1, h2, hexp, Complex.exp_neg, hexp, Complex.inv_I]

theorem x90_explicit :
    x90 = !![((Real.sqrt 2 / 2 : ℝ) : ℂ), -Complex.I * ((Real.sqrt 2 / 2 : ℝ) : ℂ);
             -Complex.I * ((Real.sqrt 2 / 2 : ℝ) : ℂ), ((Real.sqrt 2 / 2 : ℝ) : ℂ)] := by
  unfold x90 rot_x
  have harg : ((Real.pi / 2 : ℝ) : ℂ) / 2 = ((Real.pi / 4 : ℝ) : ℂ) := by
    push_cast; ring
  rw [harg, ← Complex.ofReal_cos, ← Complex.ofReal_sin,
    Real.cos_pi_div_four, Real.sin_pi_div_four]

theorem sqrtTwoHalf_mul_self :
    ((Real.sqrt 2 / 2 : ℝ) : ℂ) * ((Real.sqrt 2 / 2 : ℝ) : ℂ) = 1 / 2 := by
  have h : (Real.sqrt 2 / 2) * (Real.sqrt 2 / 2) = 1 / 2 := by
    rw [div_mul_div_comm, Real.mul_self_sqrt (by norm_num : (0 : ℝ) ≤ 2)]
    norm_num
  calc ((Real.sqrt 2 / 2 : ℝ) : ℂ) * ((Real.sqrt 2 / 2 : ℝ) : ℂ)
      = (((Real.sqrt 2 / 2) * (Real.sqrt 2 / 2) : ℝ) : ℂ) := by push_cast; ring
    _ = 1 / 2 := by rw [h]; norm_num

theorem x90_smul :
    x90 = ((Real.sqrt 2 / 2 : ℝ) : ℂ) • !![1, -Complex.I; -Complex.I, 1] := by
  rw [x90_explicit]
  rw [← Matrix.ext_iff]
  simp [Fin.forall_fin_two, Matrix.smul_apply, mul_comm]

theorem zxzxz_code_at_witnessPoint :
    zxzxzMatrix ![0, 1/2, 0] = !![0, 1; -1, 0] := by
  unfold zxzxzMatrix
  have a0 : (![0, 1/2, 0] : Fin 3 → ℝ) 0 * Real.pi * 2 = 0 := by
    simp
  have a1 : (![0, 1/2, 0] : Fin 3 → ℝ) 1 * Real.pi * 2 + Real.pi = 2 * Real.pi := by
    simp [Matrix.cons_val_one, Matrix.head_cons]; ring
  have a2 : (![0, 1/2, 0] : Fin 3 → ℝ) 2 * Real.pi * 2 - Real.pi = -Real.pi := by
    simp
  rw [a0, a1, a2, rot_z_zero, rot_z_two_pi, rot_z_neg_pi, x90_smul,
    ← Matrix.one_fin_two, one_mul]
  simp only [Matrix.smul_mul, Matrix.mul_smul, smul_smul, sqrtTwoHalf_mul_self]
  rw [Matrix.mul_fin_two, Matrix.mul_fin_two, Matrix.mul_fin_two]
  rw [← Matrix.ext_iff]
  simp only [Fin.forall_fin_two, Matrix.smul_apply, Matrix.cons_val', Matrix.cons_val_zero,
    Matrix.cons_val_one, Matrix.head_cons, Matrix.empty_val', Matrix.cons_val_fin_one,
    smul_eq_mul]
  norm_num [Complex.ext_iff]

theorem zxzxz_claim_at_witnessPoint :
    zxzxzClaimFormula ![0, 1/2, 0] = !![0, -1; 1, 0] := by
  unfold zxzxzClaimFormula
  have a0 : 2 * Real.pi * (![0, 1/2, 0] : Fin 3 → ℝ) 0 = 0 := by simp
  have a1 : 2 * Real.pi * (![0, 1/2, 0] : Fin 3 → ℝ) 1 + Real.pi = 2 * Real.pi := by
    simp [Matrix.cons_val_one, Matrix.head_cons]; ring
  have a2 : 2 * Real.pi * (![0, 1/2, 0] : Fin 3 → ℝ) 2 - Real.pi = -Real.pi := by
    simp
  rw [a0, a1, a2, rot_z_zero, rot_z_two_pi, rot_z_neg_pi, x90_smul,
    ← Matrix.one_fin_two, mul_one]
  simp only [Matrix.smul_mul, Matrix.mul_smul, smul_smul, sqrtTwoHalf_mul_self]
  rw [Matrix.mul_fin_two, Matrix.mul_fin_two, Matrix.mul_fin_two]
  rw [← Matrix.ext_iff]
  simp only [Fin.forall_fin_two, Matrix.smul_apply, Matrix.cons_val', Matrix.cons_val_zero,
    Matrix.cons_val_one, Matrix.head_cons, Matrix.empty_val', Matrix.cons_val_fin_one,
    smul_eq_mul]
  norm_num [Complex.ext_iff]

/-- C4 counterexample: at `v = (0, 1/2, 0)` the product computed by the code is
`[[0, 1], [-1, 0]]` while the written-order product of the claim is
`[[0, -1], [1, 0]]`; the two matrices differ, so the claimed factor order is
wrong. -/
theorem zxzxz_claim_order_false :
    zxzxzMatrix ![0, 1/2, 0] ≠ zxzxzClaimFormula ![0, 1/2, 0] := by
  rw [zxzxz_code_at_witnessPoint, zxzxz_claim_at_witnessPoint]
  intro h
  have h01 := congrFun (congrFun h 0) 1
  simp only [Matrix.cons_val', Matrix.cons_val_zero, Matrix.cons_val_one,
    Matrix.head_cons, Matrix.empty_val', Matrix.cons_val_fin_one] at h01
  norm_num at h01

/-- C4 amended: for every parameter vector of length 3,
`ZXZXZQubitStep.matrix(t)` equals
`R_z(2pi t0) . X90 . R_z(2pi t1 + pi) . X90 . R_z(2pi t2 - pi)` with
`X90 = R_x(pi/2)` and the factors multiplied in the order written (the
reverse of the order the claim states); the output is a complex 2-by-2
matrix by construction. -/
theorem zxzxz_matrix_eq_amended_formula (v : Fin 3 → ℝ) :
    zxzxzMatrix v = zxzxzAmendedFormula v := by
  unfold zxzxzMatrix zxzxzAmendedFormula
  rw [show v 0 * Real.pi * 2 = 2 * Real.pi * v 0 by ring,
    show v 1 * Real.pi * 2 + Real.pi = 2 * Real.pi * v 1 + Real.pi by ring,
    show v 2 * Real.pi * 2 - Real.pi = 2 * Real.pi * v 2 - Real.pi by ring,
    mul_assoc, mul_assoc, mul_assoc]

/-! ## Section 5: compositional nodes and parameter slices (claim C6)

`KroneckerStep` (circuits.py lines 445-461) and `ProductStep` (lines 488-504)
set `num_inputs` to the arity sum over their children and set `dits` to the width
sum over the children (Kronecker) or the width of the first child (Product, 0 when
empty).  Both `matrix` methods run the same loop: starting from `index = 0`,
each child in declaration order receives the slice
`v[index : index + child.num_inputs]` and `index` advances by the arity
of the child; the per-child matrices are then combined by iterated `np.kron`
(Kronecker) or `np.matmul` (Product), and `matrices[0]` raises on an empty
child list (modelled as `none`).

Matrices are unsized lists of rows over an arbitrary semiring-like carrier;
leaf gates are abstract `(arity, width, matrix-function)` triples, which is
all the compositional code consults. -/

/-- Entrywise Kronecker product of row-major matrices, as `np.kron` computes
it: row `(i,k)` is the concatenation over columns `j` of `A i j * B k -`. -/
def matKron {α : Type} [Mul α] (A B : List (List α)) : List (List α) :=
  A.flatMap fun ra => B.map fun rb => ra.flatMap fun x => rb.map fun y => x * y

/-- Dot product of two rows. -/
def dotProd {α : Type} [Mul α] [Add α] [Zero α] (xs ys : List α) : α :=
  (List.zipWith (fun a b => a * b) xs ys).foldr (fun a b => a + b) 0

/-- Row-by-column matrix product, as `np.matmul` computes it. -/
def matMul {α : Type} [Mul α] [Add α] [Zero α] (A B : List (List α)) : List (List α) :=
  A.map fun ra => B.transpose.map fun cb => dotProd ra cb

/-! The circuit tree as the compositional code sees it: leaves report an
arity, a width and a matrix function; `kron` and `prodS` carry children. -/
mutual
inductive QStep (α : Type) where
  | leaf (arity : ℕ) (width : ℕ) (mat : List α → List (List α))
  | kron (children : QStepList α)
  | prodS (children : QStepList α)

inductive QStepList (α : Type) where
  | nil
  | cons (head : QStep α) (tail : QStepList α)
end

/-! `num_inputs`, translated from the `__init__` bodies: compositional nodes
sum the arities of their children (circuits.py lines 447 and 490). -/
mutual
def QStep.numInputs {α : Type} : QStep α → ℕ
  | .leaf a _ _ => a
  | .kron cs => cs.sumInputs
  | .prodS cs => cs.sumInputs

def QStepList.sumInputs {α : Type} : QStepList α → ℕ
  | .nil => 0
  | .cons c r => c.numInputs + r.sumInputs
end

/-! `dits`: Kronecker sums the widths of the children (line 449); Product takes
the width of its first child, 0 when childless (line 492). -/
mutual
def QStep.dits {α : Type} : QStep α → ℕ
  | .leaf _ w _ => w
  | .kron cs => cs.sumDits
  | .prodS cs => cs.headDits

def QStepList.sumDits {α : Type} : QStepList α → ℕ
  | .nil => 0
  | .cons c r => c.dits + r.sumDits

def QStepList.headDits {α : Type} : QStepList α → ℕ
  | .nil => 0
  | .cons c _ => c.dits
end

/-! The `matrix` methods.  `childMats` is the common slicing loop: `index`
starts at 0 and each child receives `v[index : index + child.num_inputs]`. -/
mutual
def QStep.matrix {α : Type} [Mul α] [Add α] [Zero α] :
    QStep α → List α → Option (List (List α))
  | .leaf _ _ f, v => some (f v)
  | .kron cs, v =>
      match cs.childMats v 0 with
      | some (m :: rest) => some (rest.foldl matKron m)
      | _ => none
  | .prodS cs, v =>
      match cs.childMats v 0 with
      | some (m :: rest) => some (rest.foldl matMul m)
      | _ => none

def QStepList.childMats {α : Type} [Mul α] [Add α] [Zero α] :
    QStepList α → List α → ℕ → Option (List (List (List α)))
  | .nil, _, _ => some []
  | .cons c rest, v, idx =>
      match c.matrix ((v.drop idx).take c.numInputs),
            rest.childMats v (idx + c.numInputs) with
      | some m, some ms => some (m :: ms)
      | _, _ => none
end

/-- The children as an ordinary list, for spec-side statements. -/
def QStepList.toList {α : Type} : QStepList α → List (QStep α)
  | .nil => []
  | .cons c r => c :: r.toList

/-- Spec-side slice table: child `k` is assigned the slice starting at the sum
of the arities of children `0..k-1`, of length its own arity. -/
def QStepList.sliceSpec {α : Type} : QStepList α → ℕ → List (ℕ × ℕ)
  | .nil, _ => []
  | .cons c rest, idx => (idx, c.numInputs) :: rest.sliceSpec (idx + c.numInputs)

/-- Slices listed with consecutive extents from a given start: each begins
exactly where the previous one ended, hence in declaration order and
pairwise non-overlapping. -/
def consecutiveFrom : ℕ → List (ℕ × ℕ) → Prop
  | _, [] => True
  | i, (o, n) :: rest => o = i ∧ consecutiveFrom (o + n) rest

/-- Child matrices evaluated against an explicit slice table (the reading of
the spec); `none` if the table runs short. -/
def QStepList.matsAt {α : Type} [Mul α] [Add α] [Zero α] :
    QStepList α → List α → List (ℕ × ℕ) → Option (List (List (List α)))
  | .nil, _, _ => some []
  | .cons _ _, _, [] => none
  | .cons c rest, v, (o, n) :: ss =>
      match c.matrix ((v.drop o).take n), rest.matsAt v ss with
      | some m, some ms => some (m :: ms)
      | _, _ => none

theorem sumInputs_toList {α : Type} :
    (cs : QStepList α) → cs.sumInputs = (cs.toList.map QStep.numInputs).sum
  | .nil => rfl
  | .cons c r => by
      simp [QStepList.sumInputs, QStepList.toList, sumInputs_toList r]

theorem sumDits_toList {α : Type} :
    (cs : QStepList α) → cs.sumDits = (cs.toList.map QStep.dits).sum
  | .nil => rfl
  | .cons c r => by
      simp [QStepList.sumDits, QStepList.toList, sumDits_toList r]

theorem sliceSpec_consecutive {α : Type} :
    (cs : QStepList α) → (idx : ℕ) → consecutiveFrom idx (cs.sliceSpec idx)
  | .nil, _ => trivial
  | .cons c r, idx => ⟨rfl, sliceSpec_consecutive r (idx + c.numInputs)⟩

theorem sliceSpec_lengths {α : Type} :
    (cs : QStepList α) → (idx : ℕ) →
      (cs.sliceSpec idx).map Prod.snd = cs.toList.map QStep.numInputs
  | .nil, _ => rfl
  | .cons c r, idx => by
      simp [QStepList.sliceSpec, QStepList.toList, sliceSpec_lengths r]

theorem childMats_eq_matsAt {α : Type} [Mul α] [Add α] [Zero α] :
    (cs : QStepList α) → (v : List α) → (idx : ℕ) →
      cs.childMats v idx = cs.matsAt v (cs.sliceSpec idx)
  | .nil, _, _ => rfl
  | .cons c r, v, idx => by
      simp only [QStepList.childMats, QStepList.sliceSpec, QStepList.matsAt,
        childMats_eq_matsAt r]

/-- C6: for `KroneckerStep`, arity is the sum of the child arities and
width the sum of their widths; for `ProductStep`, arity is the sum of the
child arities, and when the (nonempty) children share one common width
the node width is that width; and the `matrix` slicing loop shared by both
assigns to the children, in declaration order, the consecutive non-overlapping
slices whose lengths are the child arities and whose total length is the
parent arity. -/
theorem kronecker_product_arity_width_slices {α : Type} [Mul α] [Add α] [Zero α]
    (cs : QStepList α) (v : List α) (idx : ℕ) :
    (QStep.kron cs).numInputs = (cs.toList.map QStep.numInputs).sum
    ∧ (QStep.kron cs).dits = (cs.toList.map QStep.dits).sum
    ∧ (QStep.prodS cs).numInputs = (cs.toList.map QStep.numInputs).sum
    ∧ (∀ w : ℕ, cs.toList ≠ [] → (∀ c ∈ cs.toList, QStep.dits c = w) →
        (QStep.prodS cs).dits = w)
    ∧ consecutiveFrom idx (cs.sliceSpec idx)
    ∧ (cs.sliceSpec idx).map Prod.snd = cs.toList.map QStep.numInputs
    ∧ ((cs.sliceSpec idx).map Prod.snd).sum = (QStep.kron cs).numInputs
    ∧ cs.childMats v idx = cs.matsAt v (cs.sliceSpec idx) := by
  refine ⟨sumInputs_toList cs, sumDits_toList cs, sumInputs_toList cs, ?_,
    sliceSpec_consecutive cs idx, sliceSpec_lengths cs idx, ?_,
    childMats_eq_matsAt cs v idx⟩
  · intro w hne hw
    cases cs with
    | nil => exact absurd rfl hne
    | cons c r =>
        show c.dits = w
        exact hw c (by simp [QStepList.toList])
  · rw [sliceSpec_lengths cs idx, ← sumInputs_toList cs]
    rfl

/-- Concrete two-child list over `ℚ` for the C6 witness. -/
def demoA : QStep ℚ := .leaf 2 1 (fun _ => [[1]])

/-- Second concrete leaf for the C6 witness. -/
def demoB : QStep ℚ := .leaf 1 1 (fun _ => [[1]])

/-- Concrete child list for the C6 witness. -/
def demoList : QStepList ℚ := .cons demoA (.cons demoB .nil)

/-- Witness for C6 at a concrete two-leaf child list and
`v = [1, 2, 3]`, discharging the nonemptiness and common-width premises. -/
theorem kronecker_product_arity_width_slices_witness :
    (QStep.prodS demoList).dits = 1
    ∧ consecutiveFrom 0 (demoList.sliceSpec 0)
    ∧ demoList.childMats [1, 2, 3] 0 = demoList.matsAt [1, 2, 3] (demoList.sliceSpec 0) :=
  ⟨(kronecker_product_arity_width_slices demoList [1, 2, 3] 0).2.2.2.1 1
      (by simp [demoList, QStepList.toList])
      (by
        intro c hc
        simp [demoList, QStepList.toList] at hc
        rcases hc with h | h <;> subst h <;> rfl),
    (kronecker_product_arity_width_slices demoList [1, 2, 3] 0).2.2.2.2.1,
    (kronecker_product_arity_width_slices demoList [1, 2, 3] 0).2.2.2.2.2.2.2⟩

/-! ## Section 6: the qsearch search driver (claims C1, C3, C5)

`SearchCompiler.compile` (qsearch/compiler.py lines 73-136) drives a
best-first search.  The embedding below models one fresh run (no recovered
checkpoint) with no timeout configured — with a timeout the first loop
iteration raises `NameError` (claim C2), so the reachable loop is exactly the
no-timeout one.  Pluggable collaborators are parameters: `evalOf c` is the
composite `eval_func(U, solver(circuit).0)` for the circuit reached by the
layer-index path `c` (root = `[]`), `hFn` the heuristic, `reorder` the
arbitrary arrival order the parallel dispatcher may impose on the results
of one cycle.  Frontier entries mirror the pushed tuples
`(heuristic, depth, distance, tiebreaker, vector, structure)`; the solver
vector payload is dropped (it is never consulted by the driver, and the tuple
comparison never reaches it because tiebreakers are distinct — proved below
as part of C5). -/

/-- A circuit in the search tree, identified by the list of search-layer
indices appended on the path from the root. -/
abbrev Circ := List ℕ

/-- One frontier entry, mirroring
`(h(value, depth), depth, value, tiebreaker, -, structure)`. -/
structure Entry where
  priority : ℚ
  depth : ℤ
  dist : ℚ
  tb : ℤ
  circ : Circ
deriving DecidableEq, Repr

/-- The comparison key `heapq` effectively uses: Python compares the pushed
tuples lexicographically, position by position, so `priority` first, then
`depth`, then `dist`, then `tiebreaker`. -/
def entryKey (e : Entry) : ℚ ×ₗ (ℤ ×ₗ (ℚ ×ₗ ℤ)) :=
  toLex (e.priority, toLex (e.depth, toLex (e.dist, e.tb)))

/-- Heap order on entries: the Python tuple order. -/
def entryLe (a b : Entry) : Prop := entryKey a ≤ entryKey b

instance (a b : Entry) : Decidable (entryLe a b) := by
  unfold entryLe; infer_instance

/-- The order the claim asserts: lexicographic on `(priority, tiebreaker)`
only. -/
def prioTbLe (a b : Entry) : Prop :=
  a.priority < b.priority ∨ (a.priority = b.priority ∧ a.tb ≤ b.tb)

instance (a b : Entry) : Decidable (prioTbLe a b) := by
  unfold prioTbLe; infer_instance

theorem entryLe_refl (a : Entry) : entryLe a a := le_refl _

theorem entryLe_trans {a b c : Entry} (h1 : entryLe a b) (h2 : entryLe b c) :
    entryLe a c := le_trans h1 h2

theorem entryLe_total (a b : Entry) : entryLe a b ∨ entryLe b a :=
  le_total (entryKey a) (entryKey b)

/-- The minimum `heapq.heappop` returns: fold of the binary minimum. -/
def minEntry (e : Entry) (q : List Entry) : Entry :=
  q.foldl (fun acc x => if entryLe acc x then acc else x) e

theorem minEntry_le :
    (q : List Entry) → (e : Entry) → ∀ x ∈ e :: q, entryLe (minEntry e q) x
  | [], e => by
      intro x hx
      rcases List.mem_singleton.mp hx with rfl
      exact entryLe_refl x
  | y :: ys, e => by
      intro x hx
      have hstep : minEntry e (y :: ys) = minEntry (if entryLe e y then e else y) ys := by
        simp [minEntry]
      have hse : entryLe (if entryLe e y then e else y) e := by
        split_ifs with h
        · exact entryLe_refl e
        · rcases entryLe_total e y with h' | h'
          · exact absurd h' h
          · exact h'
      have hsy : entryLe (if entryLe e y then e else y) y := by
        split_ifs with h
        · exact h
        · exact entryLe_refl y
      have ihead := minEntry_le ys (if entryLe e y then e else y)
      rcases List.mem_cons.mp hx with rfl | hx2
      · rw [hstep]
        exact entryLe_trans (ihead _ (List.mem_cons_self _ _)) hse
      · rcases List.mem_cons.mp hx2 with rfl | hx3
        · rw [hstep]
          exact entryLe_trans (ihead _ (List.mem_cons_self _ _)) hsy
        · rw [hstep]
          exact ihead x (List.mem_cons_of_mem _ hx3)

theorem minEntry_mem :
    (q : List Entry) → (e : Entry) → minEntry e q ∈ e :: q
  | [], e => by simp [minEntry]
  | y :: ys, e => by
      have hstep : minEntry e (y :: ys) = minEntry (if entryLe e y then e else y) ys := by
        simp [minEntry]
      have ih := minEntry_mem ys (if entryLe e y then e else y)
      rw [hstep]
      rcases List.mem_cons.mp ih with h | h
      · rw [h]
        split_ifs
        · exact List.mem_cons_self _ _
        · exact List.mem_cons_of_mem _ (List.mem_cons_self _ _)
      · exact List.mem_cons_of_mem _ (List.mem_cons_of_mem _ h)

/-- `heapq.heappop`: remove and return the least entry (tuple order). -/
def popMin (q : List Entry) : Option (Entry × List Entry) :=
  match q with
  | [] => none
  | e :: es =>
      let m := minEntry e es
      some (m, (e :: es).erase m)

theorem popMin_le {q : List Entry} {m : Entry} {rest : List Entry}
    (h : popMin q = some (m, rest)) : ∀ x ∈ rest, entryLe m x := by
  match q with
  | [] => exact absurd h (by simp [popMin])
  | e :: es =>
      simp only [popMin, Option.some.injEq, Prod.mk.injEq] at h
      obtain ⟨rfl, rfl⟩ := h
      intro x hx
      exact minEntry_le es e x (List.mem_of_mem_erase hx)

/-- Driver-visible state: the frontier, best-so-far
(`best_value`, `best_depth`, the structure part of `best_pair`), and the tiebreaker
counter. -/
structure DState where
  queue : List Entry
  bestValue : ℚ
  bestDepth : ℤ
  bestCirc : Circ
  tb : ℤ
deriving Repr

/-- The fixed inputs of a run: search-layer weights (the layer at index `i` has
weight `layerWeights[i]`), scoring function, heuristic, threshold, optional
target depth, beam count, and an arbitrary per-cycle arrival reordering of
the dispatcher results. -/
structure DParams where
  layerWeights : List ℤ
  evalOf : Circ → ℚ
  hFn : ℚ → ℤ → ℚ
  threshold : ℚ
  depthOpt : Option ℤ
  beams : ℕ
  reorder : List (Circ × ℤ × ℤ) → List (Circ × ℤ × ℤ)

/-- Observable frontier events: a push of an entry, or a pop recording the
popped entry and the frontier contents right after removal. -/
inductive DEvent where
  | push (e : Entry)
  | pop (e : Entry) (remaining : List Entry)
deriving DecidableEq, Repr

/-- The acceptance condition of compiler.py line 122, verbatim:
`(current_value < best_value and (best_value >= threshold or new_depth <=
best_depth)) or (current_value < threshold and new_depth < best_depth)`. -/
def acceptBest (threshold bv : ℚ) (bd : ℤ) (cv : ℚ) (nd : ℤ) : Prop :=
  (cv < bv ∧ (bv ≥ threshold ∨ nd ≤ bd)) ∨ (cv < threshold ∧ nd < bd)

instance (threshold bv : ℚ) (bd : ℤ) (cv : ℚ) (nd : ℤ) :
    Decidable (acceptBest threshold bv bd cv nd) := by
  unfold acceptBest; infer_instance

/-- `depth is None or new_depth < depth` (compiler.py line 127). -/
def pushAllowed : Option ℤ → ℤ → Bool
  | none, _ => true
  | some d, nd => decide (nd < d)

/-- Processing one scored result `(step, result, current_depth, weight)`
(compiler.py lines 119-129): compute `current_value` and `new_depth`, update
best-so-far under `acceptBest`, then push the survivor with the current
tiebreaker and increment it. -/
def reduceOne (p : DParams) (s : DState) (job : Circ × ℤ × ℤ) :
    DState × List DEvent :=
  let cv := p.evalOf job.1
  let nd := job.2.1 + job.2.2
  let s1 :=
    if acceptBest p.threshold s.bestValue s.bestDepth cv nd then
      { s with bestValue := cv, bestDepth := nd, bestCirc := job.1 }
    else s
  if pushAllowed p.depthOpt nd then
    let e : Entry := ⟨p.hFn cv nd, nd, cv, s1.tb, job.1⟩
    ({ s1 with queue := s1.queue ++ [e], tb := s1.tb + 1 }, [.push e])
  else (s1, [])

/-- The reduction loop over the results of one cycle, in arrival order. -/
def reduceAll (p : DParams) : DState → List (Circ × ℤ × ℤ) → DState × List DEvent
  | s, [] => (s, [])
  | s, j :: js =>
      let r1 := reduceOne p s j
      let r2 := reduceAll p r1.1 js
      (r2.1, r1.2 ++ r2.2)

/-- The beam pop of compiler.py lines 109-115: pop up to `beams` least
entries, stopping early on an empty frontier. -/
def popBeam : ℕ → List Entry → List Entry × List Entry × List DEvent
  | 0, q => ([], q, [])
  | Nat.succ k, q =>
      match popMin q with
      | none => ([], q, [])
      | some (m, rest) =>
          let r := popBeam k rest
          (m :: r.1, r.2.1, .pop m rest :: r.2.2)

/-- The expansion comprehension of compiler.py line 118: outer loop over
search layers, inner loop over the popped entries; each child is the parent
structure with the gate of the layer appended, paired with the parent depth and
the layer weight. -/
def expand (layerWeights : List ℤ) (popped : List Entry) : List (Circ × ℤ × ℤ) :=
  layerWeights.enum.flatMap fun lw =>
    popped.map fun e => (e.circ ++ [lw.1], e.depth, lw.2)

/-- The main loop (compiler.py lines 103-131), fuelled: `none` means the fuel
ran out with a non-empty frontier (the real loop would keep running), `some`
is the state at normal exit — frontier exhausted, or threshold met (which
clears the frontier and breaks). -/
def runLoop (p : DParams) : ℕ → DState → Option DState × List DEvent
  | 0, s => (if s.queue = [] then some s else none, [])
  | Nat.succ fuel, s =>
      if s.queue = [] then (some s, [])
      else if s.bestValue < p.threshold then (some { s with queue := [] }, [])
      else
        let pb := popBeam p.beams s.queue
        let jobs := p.reorder (expand p.layerWeights pb.1)
        let r := reduceAll p { s with queue := pb.2.1 } jobs
        let rest := runLoop p fuel r.1
        (rest.1, pb.2.2 ++ r.2 ++ rest.2)

/-- The root entry pushed at compiler.py line 93:
`(h(best_value, 0), 0, best_value, -1, result[1], root)`. -/
def rootEntry (p : DParams) : Entry :=
  ⟨p.hFn (p.evalOf []) 0, 0, p.evalOf [], -1, []⟩

/-- Driver state after the fresh-start initialization (compiler.py lines
74-96): root solved, best-so-far set from it, root on the frontier,
tiebreaker counter 0. -/
def initState (p : DParams) : DState :=
  { queue := [rootEntry p], bestValue := p.evalOf [], bestDepth := 0,
    bestCirc := [], tb := 0 }

/-- Shape of a successful `compile` return: the bare tuple `(root,
result[1])` of the two early returns (lines 58 and 91), or the dict
dict keyed by structure and vector of the normal exit (line 136).  The
vector payload is omitted; only the shape and the structure part matter to
the claims. -/
inductive CompileRet where
  | pair (structurePart : Circ)
  | dict (structurePart : Circ)
deriving DecidableEq, Repr

/-- Whether a return has the claimed `{structure, vector}` dict shape. -/
def isDict : CompileRet → Bool
  | .pair _ => false
  | .dict _ => true

/-- `SearchCompiler.compile` on a fresh run: the no-search-layers early
return (lines 54-58, a tuple), the `depth == 0` early return (lines 90-91, a
tuple), else the main loop followed by the dict return (line 136). -/
def compileModel (p : DParams) (fuel : ℕ) : Option CompileRet :=
  if p.layerWeights = [] then some (.pair [])
  else if p.depthOpt = some 0 then some (.pair [])
  else
    match (runLoop p fuel (initState p)).1 with
    | some s => some (.dict s.bestCirc)
    | none => none

/-- The frontier event trace of a fresh run: the root push (line 93, with
tiebreaker `-1`), then the pops and pushes of the loop. -/
def runTrace (p : DParams) (fuel : ℕ) : List DEvent :=
  .push (rootEntry p) :: (runLoop p fuel (initState p)).2

theorem reduceOne_bestValue (p : DParams) (s : DState) (job : Circ × ℤ × ℤ) :
    (reduceOne p s job).1.bestValue =
      if acceptBest p.threshold s.bestValue s.bestDepth (p.evalOf job.1)
          (job.2.1 + job.2.2) then p.evalOf job.1 else s.bestValue := by
  unfold reduceOne
  dsimp only
  split_ifs <;> rfl

theorem reduceOne_bestTriple (p : DParams) (s : DState) (job : Circ × ℤ × ℤ) :
    ((reduceOne p s job).1.bestValue, (reduceOne p s job).1.bestDepth,
      (reduceOne p s job).1.bestCirc) =
      if acceptBest p.threshold s.bestValue s.bestDepth (p.evalOf job.1)
          (job.2.1 + job.2.2)
      then (p.evalOf job.1, job.2.1 + job.2.2, job.1)
      else (s.bestValue, s.bestDepth, s.bestCirc) := by
  unfold reduceOne
  dsimp only
  split_ifs <;> rfl

theorem reduceAll_bestValue_mono (p : DParams) :
    (jobs : List (Circ × ℤ × ℤ)) → ∀ s : DState,
      (∀ j ∈ jobs, p.threshold ≤ p.evalOf j.1) →
      (reduceAll p s jobs).1.bestValue ≤ s.bestValue
  | [], s, _ => le_refl _
  | j :: js, s, hsafe => by
      have h1 : (reduceOne p s j).1.bestValue ≤ s.bestValue := by
        rw [reduceOne_bestValue]
        split_ifs with hacc
        · rcases hacc with ⟨hlt, _⟩ | ⟨hth, _⟩
          · exact le_of_lt hlt
          · exact absurd hth (not_lt.mpr (hsafe j (List.mem_cons_self _ _)))
        · exact le_refl _
      have h2 := reduceAll_bestValue_mono p js (reduceOne p s j).1
        (fun j' hj' => hsafe j' (List.mem_cons_of_mem _ hj'))
      exact le_trans h2 h1

/-- C1: in the reduction step, best-so-far is updated iff
`(current_value < best_distance and (best_distance >= threshold or new_depth
<= best_depth)) or (current_value < threshold and new_depth < best_depth)`
with `new_depth = parent_depth + weight`; one step never increases
`best_distance` except when clause (b) accepts a below-threshold result at
strictly shallower depth; consequently a reduction loop none of whose results
is below threshold never increases `best_distance`. -/
theorem best_update_rule (p : DParams) (s : DState) (c : Circ) (pd w : ℤ) :
    (((reduceOne p s (c, pd, w)).1.bestValue, (reduceOne p s (c, pd, w)).1.bestDepth,
        (reduceOne p s (c, pd, w)).1.bestCirc)
        ≠ (s.bestValue, s.bestDepth, s.bestCirc)
      ↔ ((p.evalOf c < s.bestValue
            ∧ (s.bestValue ≥ p.threshold ∨ pd + w ≤ s.bestDepth))
          ∨ (p.evalOf c < p.threshold ∧ pd + w < s.bestDepth)))
    ∧ ((reduceOne p s (c, pd, w)).1.bestValue ≤ s.bestValue
        ∨ (p.evalOf c < p.threshold ∧ pd + w < s.bestDepth))
    ∧ ∀ jobs : List (Circ × ℤ × ℤ),
        (∀ j ∈ jobs, p.threshold ≤ p.evalOf j.1) →
        (reduceAll p s jobs).1.bestValue ≤ s.bestValue := by
  have htrip := reduceOne_bestTriple p s (c, pd, w)
  have hval := reduceOne_bestValue p s (c, pd, w)
  refine ⟨?_, ?_, fun jobs hsafe => reduceAll_bestValue_mono p jobs s hsafe⟩
  · by_cases hacc : acceptBest p.threshold s.bestValue s.bestDepth (p.evalOf c) (pd + w)
    · rw [if_pos hacc] at htrip
      constructor
      · intro _
        exact hacc
      · intro _
        rw [htrip]
        simp only [ne_eq, Prod.mk.injEq, not_and]
        intro h1 h2
        rcases hacc with ⟨hlt, _⟩ | ⟨_, hlt⟩
        · exact absurd h1 (ne_of_lt hlt)
        · exact absurd h2 (fun h => absurd h (ne_of_lt hlt))
    · rw [if_neg hacc] at htrip
      rw [htrip]
      simp only [ne_eq, not_true_eq_false, false_iff]
      exact hacc
  · by_cases hacc : acceptBest p.threshold s.bestValue s.bestDepth (p.evalOf c) (pd + w)
    · rcases hacc with ⟨hlt, _⟩ | hb
      · left
        rw [hval]
        split_ifs
        · exact le_of_lt hlt
        · exact le_refl _
      · exact Or.inr hb
    · left
      rw [hval, if_neg hacc]

/-- Concrete run parameters for the C1 witness. -/
def wParams : DParams :=
  { layerWeights := [1]
    evalOf := fun c => if c = [] then 10 else 5
    hFn := fun d dep => d + (dep : ℚ)
    threshold := 1
    depthOpt := none
    beams := 1
    reorder := id }

/-- Witness for C1: the no-below-threshold premise discharged at a concrete
one-job reduction, so the best residual does not increase there. -/
theorem best_update_rule_witness :
    wParams.threshold ≤ wParams.evalOf [0]
    ∧ (reduceAll wParams (initState wParams) [([0], 0, 1)]).1.bestValue
        ≤ (initState wParams).bestValue :=
  ⟨by decide,
    (best_update_rule wParams (initState wParams) [0] 0 1).2.2
      [([0], 0, 1)] (by decide)⟩

/-! ### Claim C5: tiebreaker monotonicity and frontier pop order -/

/-- Tiebreakers of the push events, in trace order. -/
def pushedTbs : List DEvent → List ℤ
  | [] => []
  | .push e :: evs => e.tb :: pushedTbs evs
  | .pop _ _ :: evs => pushedTbs evs

/-- A pop event is sound when the popped entry is below every entry left in
the frontier, in the full tuple order; push events carry no obligation. -/
def popOk : DEvent → Prop
  | .pop e rem => ∀ x ∈ rem, entryLe e x
  | .push _ => True

/-- Tiebreaker values strictly increasing and confined to `[lo, hi)`. -/
def tbWindow (lo hi : ℤ) (ts : List ℤ) : Prop :=
  List.Pairwise (· < ·) ts ∧ ∀ t ∈ ts, lo ≤ t ∧ t < hi

theorem tbWindow_append {lo mid hi : ℤ} {ts1 ts2 : List ℤ}
    (h1 : tbWindow lo mid ts1) (h2 : tbWindow mid hi ts2)
    (hlm : lo ≤ mid) (hmh : mid ≤ hi) : tbWindow lo hi (ts1 ++ ts2) := by
  obtain ⟨hp1, hb1⟩ := h1
  obtain ⟨hp2, hb2⟩ := h2
  constructor
  · rw [List.pairwise_append]
    exact ⟨hp1, hp2, fun a ha b hb =>
      lt_of_lt_of_le (hb1 a ha).2 (hb2 b hb).1⟩
  · intro t ht
    rcases List.mem_append.mp ht with h | h
    · exact ⟨(hb1 t h).1, lt_of_lt_of_le (hb1 t h).2 hmh⟩
    · exact ⟨le_trans hlm (hb2 t h).1, (hb2 t h).2⟩

theorem pushedTbs_append :
    (evs1 evs2 : List DEvent) →
      pushedTbs (evs1 ++ evs2) = pushedTbs evs1 ++ pushedTbs evs2
  | [], _ => rfl
  | .push e :: evs, evs2 => by
      simp [pushedTbs, pushedTbs_append evs evs2]
  | .pop e r :: evs, evs2 => by
      simp [pushedTbs, pushedTbs_append evs evs2]

theorem reduceOne_tb (p : DParams) (s : DState) (job : Circ × ℤ × ℤ) :
    s.tb ≤ (reduceOne p s job).1.tb
    ∧ tbWindow s.tb (reduceOne p s job).1.tb (pushedTbs (reduceOne p s job).2) := by
  unfold reduceOne
  dsimp only
  split_ifs <;>
    refine ⟨by simp, ?_, ?_⟩ <;>
      simp [pushedTbs, tbWindow]

theorem reduceAll_tb (p : DParams) :
    (jobs : List (Circ × ℤ × ℤ)) → ∀ s : DState,
      s.tb ≤ (reduceAll p s jobs).1.tb
      ∧ tbWindow s.tb (reduceAll p s jobs).1.tb (pushedTbs (reduceAll p s jobs).2)
  | [], s => ⟨le_refl _, List.Pairwise.nil, by simp [pushedTbs]⟩
  | j :: js, s => by
      obtain ⟨hle1, hw1⟩ := reduceOne_tb p s j
      obtain ⟨hle2, hw2⟩ := reduceAll_tb p js (reduceOne p s j).1
      refine ⟨le_trans hle1 hle2, ?_⟩
      show tbWindow s.tb (reduceAll p (reduceOne p s j).1 js).1.tb
        (pushedTbs ((reduceOne p s j).2 ++ (reduceAll p (reduceOne p s j).1 js).2))
      rw [pushedTbs_append]
      exact tbWindow_append hw1 hw2 hle1 hle2

theorem popBeam_no_push :
    (n : ℕ) → (q : List Entry) → pushedTbs (popBeam n q).2.2 = []
  | 0, _ => rfl
  | Nat.succ k, q => by
      unfold popBeam
      cases h : popMin q with
      | none => rfl
      | some mr => simp [pushedTbs, popBeam_no_push k mr.2]

theorem runLoop_tb (p : DParams) :
    (fuel : ℕ) → (s : DState) →
      ∃ hi, s.tb ≤ hi ∧ tbWindow s.tb hi (pushedTbs (runLoop p fuel s).2)
  | 0, s => ⟨s.tb, le_refl _, by
      constructor <;> simp [runLoop, pushedTbs]⟩
  | Nat.succ fuel, s => by
      unfold runLoop
      split_ifs with h1 h2
      · exact ⟨s.tb, le_refl _, by constructor <;> simp [pushedTbs]⟩
      · exact ⟨s.tb, le_refl _, by constructor <;> simp [pushedTbs]⟩
      · set pb := popBeam p.beams s.queue with hpb
        set jobs := p.reorder (expand p.layerWeights pb.1) with hjobs
        obtain ⟨hle2, hw2⟩ := reduceAll_tb p jobs { s with queue := pb.2.1 }
        obtain ⟨hi, hle3, hw3⟩ :=
          runLoop_tb p fuel (reduceAll p { s with queue := pb.2.1 } jobs).1
        refine ⟨hi, le_trans hle2 hle3, ?_⟩
        rw [pushedTbs_append, pushedTbs_append, popBeam_no_push, List.nil_append]
        have hwin0 : tbWindow s.tb (reduceAll p { s with queue := pb.2.1 } jobs).1.tb
            (pushedTbs (reduceAll p { s with queue := pb.2.1 } jobs).2) := hw2
        exact tbWindow_append hwin0 hw3 hle2 hle3

theorem popBeam_popOk :
    (n : ℕ) → (q : List Entry) → ∀ ev ∈ (popBeam n q).2.2, popOk ev
  | 0, _ => by simp [popBeam]
  | Nat.succ k, q => by
      unfold popBeam
      cases h : popMin q with
      | none => simp
      | some mr =>
          intro ev hev
          rcases List.mem_cons.mp hev with rfl | hev2
          · exact fun x hx => popMin_le (by rw [h]) x hx
          · exact popBeam_popOk k mr.2 ev hev2

theorem reduceOne_popOk (p : DParams) (s : DState) (job : Circ × ℤ × ℤ) :
    ∀ ev ∈ (reduceOne p s job).2, popOk ev := by
  unfold reduceOne
  dsimp only
  split_ifs <;> simp [popOk]

theorem reduceAll_popOk (p : DParams) :
    (jobs : List (Circ × ℤ × ℤ)) → ∀ s : DState,
      ∀ ev ∈ (reduceAll p s jobs).2, popOk ev
  | [], s => by simp [reduceAll]
  | j :: js, s => by
      intro ev hev
      rcases List.mem_append.mp hev with h | h
      · exact reduceOne_popOk p s j ev h
      · exact reduceAll_popOk p js (reduceOne p s j).1 ev h

theorem runLoop_popOk (p : DParams) :
    (fuel : ℕ) → (s : DState) → ∀ ev ∈ (runLoop p fuel s).2, popOk ev
  | 0, s => by simp [runLoop]
  | Nat.succ fuel, s => by
      unfold runLoop
      split_ifs
      · simp
      · simp
      · intro ev hev
        rcases List.mem_append.mp hev with h | h
        · rcases List.mem_append.mp h with h' | h'
          · exact popBeam_popOk _ _ ev h'
          · exact reduceAll_popOk p _ _ ev h'
        · exact runLoop_popOk p fuel _ ev h

/-- C5 amended: across any fresh run, every push (the root push with tiebreaker `-1`
included) uses a strictly larger tiebreaker than all prior pushes, and every
popped entry is below every entry then remaining in the frontier — but in the
full pushed-tuple lexicographic order `(priority, depth, distance,
tiebreaker)` that `heapq` actually compares, under which ties in priority
break by depth, then distance, and only then by insertion order. -/
theorem frontier_tiebreaker_monotone_and_pop_order (p : DParams) (fuel : ℕ) :
    List.Pairwise (· < ·) (pushedTbs (runTrace p fuel))
    ∧ ∀ ev ∈ runTrace p fuel, popOk ev := by
  constructor
  · show List.Pairwise (· < ·)
      (((-1 : ℤ)) :: pushedTbs (runLoop p fuel (initState p)).2)
    obtain ⟨hi, hle, hpair, hbound⟩ := runLoop_tb p fuel (initState p)
    refine List.Pairwise.cons (fun t ht => ?_) hpair
    have h0 : (0 : ℤ) ≤ t := (hbound t ht).1
    omega
  · intro ev hev
    rcases List.mem_cons.mp hev with rfl | h
    · trivial
    · exact runLoop_popOk p fuel (initState p) ev h

/-- Concrete run refuting the ordering statements of the claim: two layers of
weights 2 and 1, a distance-only heuristic (the heuristic is pluggable),
beam 1.  Both depth-2 and depth-1 children score distance 1, so their
priorities tie while their depths differ. -/
def cexParams : DParams :=
  { layerWeights := [2, 1]
    evalOf := fun c => match c with | [] => 10 | [0] => 1 | [1] => 1 | _ => 0
    hFn := fun d _ => d
    threshold := 0
    depthOpt := none
    beams := 1
    reorder := id }

/-- The child pushed first (tiebreaker 0): distance 1 at depth 2, priority 1. -/
def cexE1 : Entry := ⟨1, 2, 1, 0, [0]⟩

/-- The child pushed second (tiebreaker 1): distance 1 at depth 1, priority 1. -/
def cexE2 : Entry := ⟨1, 1, 1, 1, [1]⟩

/-- C5 counterexample: in the concrete run, the driver pops the entry with
tiebreaker 1 while the equal-priority entry with tiebreaker 0 remains — the
popped entry is not `(priority, tiebreaker)`-below the remainder, and the
priority tie is broken against FIFO insertion order (by depth, the second
tuple component). -/
theorem frontier_pop_order_counterexample :
    DEvent.pop cexE2 [cexE1] ∈ runTrace cexParams 2
    ∧ ¬ prioTbLe cexE2 cexE1
    ∧ cexE2.priority = cexE1.priority
    ∧ cexE1.tb < cexE2.tb := by decide

/-- Witness for the C5 amended theorem: the pop event of the concrete run is in
its trace and satisfies the full-order pop soundness the theorem asserts. -/
theorem frontier_tiebreaker_monotone_and_pop_order_witness :
    DEvent.pop cexE2 [cexE1] ∈ runTrace cexParams 2
    ∧ popOk (DEvent.pop cexE2 [cexE1]) :=
  ⟨by decide,
    (frontier_tiebreaker_monotone_and_pop_order cexParams 2).2
      (DEvent.pop cexE2 [cexE1]) (by decide)⟩

/-! ### Claim C3: return shape of `compile` -/

/-- Parameters reaching the `depth == 0` early return. -/
def depth0Params : DParams :=
  { layerWeights := [1]
    evalOf := fun _ => 10
    hFn := fun d _ => d
    threshold := 0
    depthOpt := some 0
    beams := 1
    reorder := id }

/-- Parameters reaching the no-search-layers early return. -/
def noLayerParams : DParams :=
  { layerWeights := []
    evalOf := fun _ => 10
    hFn := fun d _ => d
    threshold := 0
    depthOpt := none
    beams := 1
    reorder := id }

/-- C3 counterexample: with target depth 0, and likewise with an empty
search-layer set, `compile` returns successfully but yields the bare tuple
`(root, result[1])` (lines 91 and 58), not the claimed
`{structure, vector}` dict. -/
theorem compile_early_return_not_dict :
    compileModel depth0Params 3 = some (.pair [])
    ∧ (compileModel depth0Params 3).map isDict = some false
    ∧ compileModel noLayerParams 3 = some (.pair [])
    ∧ (compileModel noLayerParams 3).map isDict = some false := by decide

/-- C3 amended: a successful fresh-run `compile` call returns the
`{structure, vector}` dict shape iff the gateset has search layers and the
target depth is not 0; in the two exceptional cases it returns a bare
`(structure, vector)` tuple instead. -/
theorem compile_return_shape (p : DParams) (fuel : ℕ) (r : CompileRet)
    (h : compileModel p fuel = some r) :
    isDict r = true ↔ (p.layerWeights ≠ [] ∧ p.depthOpt ≠ some 0) := by
  unfold compileModel at h
  by_cases h1 : p.layerWeights = []
  · rw [if_pos h1] at h
    obtain rfl := Option.some.inj h
    simp [isDict, h1]
  · rw [if_neg h1] at h
    by_cases h2 : p.depthOpt = some 0
    · rw [if_pos h2] at h
      obtain rfl := Option.some.inj h
      simp [isDict, h2]
    · rw [if_neg h2] at h
      cases hm : (runLoop p fuel (initState p)).1 with
      | none => rw [hm] at h; exact absurd h (by simp)
      | some s =>
          rw [hm] at h
          obtain rfl := Option.some.inj h
          simp [isDict, h1, h2]

/-- Parameters whose run exits the loop normally (threshold already met at
the root). -/
def dictParams : DParams :=
  { layerWeights := [1]
    evalOf := fun _ => 0
    hFn := fun d _ => d
    threshold := 1
    depthOpt := none
    beams := 1
    reorder := id }

/-- Witness for the amended C3 at a concrete normally-terminating run. -/
theorem compile_return_shape_witness :
    compileModel dictParams 1 = some (.dict [])
    ∧ (isDict (.dict ([] : Circ)) = true
        ↔ (dictParams.layerWeights ≠ [] ∧ dictParams.depthOpt ≠ some 0)) :=
  ⟨by decide, compile_return_shape dictParams 1 (.dict []) (by decide)⟩

end QsearchSpec
